import Mathlib

/-! CRC16 (`crc16.c`, `crc16.h`): a shallow embedding

The module keeps one process-wide `unsigned int crc_register` and offers
`crc16_init`, `crc16_update`, `crc16_calculate`, `crc16_result` and
`crc16_result_array`.

Conventions of the embedding.

* Machine integers are natural numbers; every C operation that can leave the
  range of its type is followed by an explicit `% 2 ^ w`.
* Nothing in the source fixes the width of `unsigned int`: it is the parameter
  `w` (the number of value bits, at least 16 in C) of every function that shifts
  the register.  `crc_register <<= 1` is `(crc_register <<< 1) % 2 ^ w`; the
  source applies no other mask.  `unsigned char` is 8 bits wide.
* The global `crc_register` is the single field of `State`; every function takes
  the state before the call and returns the state after it.
* `crc16_calculate` converts its arguments `initial` and `length` to its
  parameter type `unsigned char`.  The arguments of `crc16_init` and
  `crc16_update` are values of their parameter types.
* The two `for` loops are recursive functions with a fuel argument; `none` means
  that the fuel ran out (or, in `crc16_calculate`, that a byte outside the
  buffer was read).  One unit of fuel pays for one evaluation of the loop
  condition.
-/

namespace CRC16

/-- Width in bits of `unsigned char`. -/
abbrev UCHAR_BITS : Nat := 8

/-- `#define CRC16_INITIAL_VALUE 0x0000` (crc16.h:35). -/
def CRC16_INITIAL_VALUE : Nat := 0x0000

/-- `#define CRC16_POLYNOM 0x8005` (crc16.h:50). -/
def CRC16_POLYNOM : Nat := 0x8005

/-- The module state: `static unsigned int crc_register` (crc16.c:4). -/
structure State where
  crc_register : Nat
  deriving DecidableEq

/-- The state at program start: `crc_register = CRC16_INITIAL_VALUE`. -/
def State.startup : State := { crc_register := CRC16_INITIAL_VALUE }

/-- `void crc16_init(unsigned int value)` (crc16.c:17-20). -/
def crc16_init (value : Nat) (_s : State) : State :=
  { crc_register := value }

/-- Body of the `for` loop of `crc16_update` (crc16.c:39-52) for one value of
`shift_register`; `w` is the width of `unsigned int`. -/
def crc16_update_body (w data shift_register : Nat) (s : State) : State :=
  let data_bit : Nat := if data &&& shift_register ≠ 0 then 1 else 0
  let crc_bit : Nat := (s.crc_register >>> 15) &&& 1
  let s : State := { crc_register := (s.crc_register <<< 1) % 2 ^ w }
  if data_bit ≠ crc_bit then
    { crc_register := s.crc_register ^^^ CRC16_POLYNOM }
  else
    s

/-- The `for` loop of `crc16_update` (crc16.c:37-53), entered with the given
value of the 8-bit `shift_register`; the argument after `data` is the fuel. -/
def crc16_update_loop (w data : Nat) : Nat → Nat → State → Option State
  | 0, _, _ => none
  | fuel + 1, shift_register, s =>
    if shift_register > 0x00 then
      crc16_update_loop w data fuel ((shift_register <<< 1) % 2 ^ UCHAR_BITS)
        (crc16_update_body w data shift_register s)
    else
      some s

/-- `void crc16_update(unsigned char data)` (crc16.c:35-54). -/
def crc16_update (w fuel : Nat) (data : Nat) (s : State) : Option State :=
  crc16_update_loop w data fuel 0x01 s

/-- The `for` loop of `crc16_calculate` (crc16.c:73-76), entered with the given
value of the 8-bit counter `i`.  `fuel` is handed to every call of
`crc16_update`; the second numeric argument is the fuel of this loop. -/
def crc16_calculate_loop (w fuel : Nat) (data : List Nat) (length : Nat) :
    Nat → Nat → State → Option State
  | 0, _, _ => none
  | n + 1, i, s =>
    if i < length then
      match data[i]? with
      | none => none
      | some b =>
        match crc16_update w fuel b s with
        | none => none
        | some s1 => crc16_calculate_loop w fuel data length n ((i + 1) % 2 ^ UCHAR_BITS) s1
    else
      some s

/-- `void crc16_calculate(unsigned char initial, unsigned char *data,
unsigned char length)` (crc16.c:69-77).  `data` is the content of the buffer
the pointer refers to; the arguments `initial` and `length` are converted to
`unsigned char` on entry. -/
def crc16_calculate (w fuel : Nat) (initial : Nat) (data : List Nat) (length : Nat)
    (s : State) : Option State :=
  let initial : Nat := initial % 2 ^ UCHAR_BITS
  let length : Nat := length % 2 ^ UCHAR_BITS
  crc16_calculate_loop w fuel data length fuel 0 (crc16_init initial s)

/-- `unsigned int crc16_result(void)` (crc16.c:90-93): the returned value and
the state after the call. -/
def crc16_result (s : State) : Nat × State :=
  (s.crc_register, s)

/-- `void crc16_result_array(unsigned char *crc)` (crc16.c:106-110): the content
of the caller's buffer after the call, and the state after the call.  Each
`(unsigned char)` cast is a reduction modulo `2 ^ 8`. -/
def crc16_result_array (crc : List Nat) (s : State) : List Nat × State :=
  let (r0, s) := crc16_result s
  let crc := crc.set 0 ((r0 &&& 0x00FF) % 2 ^ UCHAR_BITS)
  let (r1, s) := crc16_result s
  let crc := crc.set 1 ((r1 >>> 8) % 2 ^ UCHAR_BITS)
  (crc, s)

/-! ## Callers -/

/-- A caller that passes the bytes of `bs` to `crc16_update`, one call per byte,
first byte first. -/
def crc16_update_each (w fuel : Nat) : List Nat → State → Option State
  | [], s => some s
  | b :: bs, s =>
    match crc16_update w fuel b s with
    | none => none
    | some s1 => crc16_update_each w fuel bs s1

/-- A caller that calls `crc16_result` `n` times in a row: the values returned,
in order, and the state after the last call. -/
def crc16_result_times : Nat → State → List Nat × State
  | 0, s => ([], s)
  | n + 1, s =>
    let (r, s1) := crc16_result s
    let (rs, s2) := crc16_result_times n s1
    (r :: rs, s2)

/-! ## Reference functions used to state the properties -/

/-- Bit `k` of `x`, as the number `0` or `1`. -/
def bitAt (k x : Nat) : Nat := (x / 2 ^ k) % 2

/-- The single-bit step on a register of `w` bits: shift `c` left by one within
`w` bits and, when the data bit `d` differs from bit 15 of `c`, XOR with
`0x8005`. -/
def stepW (w c d : Nat) : Nat :=
  let t := (2 * c) % 2 ^ w
  if d ≠ bitAt 15 c then t ^^^ 0x8005 else t

/-- Eight single-bit steps on a register of `w` bits from `c`, on the bits of `b`
from bit 0 to bit 7. -/
def bitStepsW (w c b : Nat) : Nat :=
  stepW w (stepW w (stepW w (stepW w (stepW w (stepW w (stepW w (stepW w c
    (bitAt 0 b)) (bitAt 1 b)) (bitAt 2 b)) (bitAt 3 b))
    (bitAt 4 b)) (bitAt 5 b)) (bitAt 6 b)) (bitAt 7 b)

/-- The bytes of `bs` folded into a register of `w` bits holding `c`, first byte
first. -/
def crcFoldW (w c : Nat) (bs : List Nat) : Nat := bs.foldl (bitStepsW w) c

/-- The single-bit step: shift the 16-bit accumulator `c` left by one and, when
the data bit `d` differs from bit 15 of `c`, XOR with `0x8005`. -/
def step (c d : Nat) : Nat :=
  let t := (2 * c) % 2 ^ 16
  if d ≠ bitAt 15 c then t ^^^ 0x8005 else t

/-- Eight single-bit steps from `c`, on the bits of `b` from bit 0 to bit 7. -/
def bitSteps (c b : Nat) : Nat :=
  step (step (step (step (step (step (step (step c
    (bitAt 0 b)) (bitAt 1 b)) (bitAt 2 b)) (bitAt 3 b))
    (bitAt 4 b)) (bitAt 5 b)) (bitAt 6 b)) (bitAt 7 b)

/-- The bytes of `bs` folded into the accumulator `c`, first byte first. -/
def crcFold (c : Nat) (bs : List Nat) : Nat := bs.foldl bitSteps c

/-- The byte `b` with the order of its 8 bits reversed: bit `k` of `b` becomes
bit `7 - k`. -/
def rev8 (b : Nat) : Nat :=
  bitAt 0 b * 128 + bitAt 1 b * 64 + bitAt 2 b * 32 + bitAt 3 b * 16 +
    bitAt 4 b * 8 + bitAt 5 b * 4 + bitAt 6 b * 2 + bitAt 7 b

/-- One shift of the textbook MSB-first CRC-16 with polynomial `0x8005`: when
bit 15 of `x` is set, `((x << 1) mod 2 ^ 16) xor 0x8005`, else `(x << 1) mod 2 ^ 16`. -/
def msbShift (x : Nat) : Nat :=
  if bitAt 15 x = 1 then ((x <<< 1) % 2 ^ 16) ^^^ 0x8005 else (x <<< 1) % 2 ^ 16

/-- The textbook MSB-first CRC-16 byte step: XOR the byte into the high half of
the accumulator, then shift 8 times. -/
def msbByteStep (c b : Nat) : Nat :=
  Nat.iterate msbShift 8 (c ^^^ (b <<< 8))

/-- The 16-bit value `x` with the order of its 16 bits reversed: bit `k` of `x`
becomes bit `15 - k`. -/
def rev16 (x : Nat) : Nat :=
  (List.range 16).foldl (fun r k => r + bitAt k x * 2 ^ (15 - k)) 0

/-- One shift of the reflected (LSB-first) CRC-16 with the reflected polynomial
`0xA001`, as CRC-16/ARC is defined. -/
def arcShift (x : Nat) : Nat :=
  if x % 2 = 1 then (x >>> 1) ^^^ 0xA001 else x >>> 1

/-- CRC-16/ARC (polynomial `0x8005`, initial value `0x0000`, input and output
reflected, no final XOR) of the bytes `bs`. -/
def crc16_arc (bs : List Nat) : Nat :=
  bs.foldl (fun crc b => Nat.iterate arcShift 8 (crc ^^^ b)) 0x0000

/-! ## Readings as polynomials over GF(2)

These state the division property only; they are mathematical objects
(`Polynomial (ZMod 2)`), not part of the embedding of the code, which stays
executable. -/

/-- The generator polynomial `G(x) = x^16 + x^15 + x^2 + 1` over GF(2). -/
noncomputable def genPoly : Polynomial (ZMod 2) :=
  Polynomial.X ^ 16 + Polynomial.X ^ 15 + Polynomial.X ^ 2 + 1

/-- The accumulator value `n` read as a polynomial over GF(2): bit `i` of `n` is the
coefficient of `x^i`, for `i = 0 .. 15`. -/
noncomputable def accPoly (n : Nat) : Polynomial (ZMod 2) :=
  Finset.sum (Finset.range 16)
    (fun i => Polynomial.C ((bitAt i n : Nat) : ZMod 2) * Polynomial.X ^ i)

/-- The bits of the message `m` in processing order: byte 0 first and, within each
byte, bit 0 first. -/
def messageBits : List Nat → List Nat
  | [] => []
  | b :: bs =>
    bitAt 0 b :: bitAt 1 b :: bitAt 2 b :: bitAt 3 b ::
      bitAt 4 b :: bitAt 5 b :: bitAt 6 b :: bitAt 7 b :: messageBits bs

/-- The polynomial over GF(2) whose coefficients are `bits`, the first bit being the
coefficient of the highest degree (each further bit multiplies by `x` and adds
itself as the constant term). -/
noncomputable def bitsPoly (bits : List Nat) : Polynomial (ZMod 2) :=
  bits.foldl (fun q d => q * Polynomial.X + Polynomial.C ((d : Nat) : ZMod 2)) 0

/-! ## Lemmas on `crc16_update` -/

theorem crc16_update_loop_unroll (w data n : Nat) (s : State) :
    crc16_update_loop w data (n + 9) 0x01 s =
      some (crc16_update_body w data 0x80 (crc16_update_body w data 0x40
        (crc16_update_body w data 0x20 (crc16_update_body w data 0x10
        (crc16_update_body w data 0x08 (crc16_update_body w data 0x04
        (crc16_update_body w data 0x02 (crc16_update_body w data 0x01 s)))))))) := by
  rfl

theorem ite_and_two_pow (x k : Nat) :
    (if x &&& 2 ^ k ≠ 0 then 1 else 0) = bitAt k x := by
  unfold bitAt
  rw [Nat.and_two_pow]
  have h := Nat.testBit_to_div_mod (x := x) (i := k)
  rcases Nat.mod_two_eq_zero_or_one (x / 2 ^ k) with h0 | h1
  · simp [h0] at h ⊢
    simp [h]
  · simp [h1] at h ⊢
    simp [h]

theorem crc16_update_body_eq_step (w data k c : Nat) :
    crc16_update_body w data (2 ^ k) { crc_register := c } =
      { crc_register := stepW w c (bitAt k data) } := by
  unfold crc16_update_body stepW
  simp only [ite_and_two_pow]
  have h1 : (c >>> 15) &&& 1 = bitAt 15 c := by
    unfold bitAt
    rw [Nat.shiftRight_eq_div_pow, Nat.and_one_is_mod]
  have h2 : c <<< 1 = 2 * c := by
    rw [Nat.shiftLeft_eq]; ring
  simp only [h1, h2, CRC16_POLYNOM]
  split <;> rfl

/-- With at least 9 units of fuel `crc16_update` returns, and the register then
holds `bitStepsW` of the old register and the byte. -/
theorem crc16_update_eq (w fuel data : Nat) (s : State) (hfuel : 9 ≤ fuel) :
    crc16_update w fuel data s =
      some { crc_register := bitStepsW w s.crc_register data } := by
  obtain ⟨n, rfl⟩ : ∃ n, fuel = n + 9 := ⟨fuel - 9, by omega⟩
  obtain ⟨c⟩ := s
  unfold crc16_update
  rw [crc16_update_loop_unroll]
  have e0 := crc16_update_body_eq_step w data 0
  have e1 := crc16_update_body_eq_step w data 1
  have e2 := crc16_update_body_eq_step w data 2
  have e3 := crc16_update_body_eq_step w data 3
  have e4 := crc16_update_body_eq_step w data 4
  have e5 := crc16_update_body_eq_step w data 5
  have e6 := crc16_update_body_eq_step w data 6
  have e7 := crc16_update_body_eq_step w data 7
  norm_num at e0 e1 e2 e3 e4 e5 e6 e7
  rw [e0, e1, e2, e3, e4, e5, e6, e7]
  rfl

theorem crc16_update_each_eq (w fuel : Nat) (hfuel : 9 ≤ fuel) (bs : List Nat) (s : State) :
    crc16_update_each w fuel bs s =
      some { crc_register := crcFoldW w s.crc_register bs } := by
  induction bs generalizing s with
  | nil => rfl
  | cons b bs ih =>
    rw [crc16_update_each, crc16_update_eq w fuel b s hfuel]
    simp only
    rw [ih]
    rfl

theorem crcFoldW_append (w c : Nat) (xs ys : List Nat) :
    crcFoldW w c (xs ++ ys) = crcFoldW w (crcFoldW w c xs) ys :=
  List.foldl_append _ _ _ _

theorem stepW_zero_zero (w : Nat) : stepW w 0 0 = 0 := by
  have h : bitAt 15 0 = 0 := by decide
  unfold stepW
  rw [h]
  simp

theorem bitStepsW_zero_zero (w : Nat) : bitStepsW w 0 0 = 0 := by
  have h : ∀ k, bitAt k 0 = 0 := by
    intro k
    unfold bitAt
    simp
  unfold bitStepsW
  simp only [h, stepW_zero_zero]

theorem crcFoldW_replicate_zero (w n : Nat) : crcFoldW w 0 (List.replicate n 0) = 0 := by
  induction n with
  | zero => rfl
  | succ n ih =>
    rw [List.replicate_succ]
    show crcFoldW w (bitStepsW w 0 0) (List.replicate n 0) = 0
    rw [bitStepsW_zero_zero, ih]

/-! ## Lemmas on `crc16_calculate` -/

theorem crc16_calculate_loop_eq (w fuel : Nat) (data : List Nat) (length : Nat)
    (hlen : length < 256) (hdata : length ≤ data.length) :
    ∀ (n i : Nat) (s : State), i ≤ length → length - i < n →
      crc16_calculate_loop w fuel data length n i s =
        crc16_update_each w fuel ((data.take length).drop i) s := by
  intro n
  induction n with
  | zero => intro i s _ h; omega
  | succ n ih =>
    intro i s hi hn
    rw [crc16_calculate_loop]
    by_cases hlt : i < length
    · have hid : i < data.length := by omega
      have hit : i < (data.take length).length := by
        rw [List.length_take]; omega
      rw [if_pos hlt, List.getElem?_eq_getElem hid, List.drop_eq_getElem_cons hit,
        crc16_update_each, List.getElem_take]
      have hmod : (i + 1) % 2 ^ UCHAR_BITS = i + 1 := by
        show (i + 1) % 256 = i + 1
        omega
      rw [hmod]
      dsimp only
      cases crc16_update w fuel data[i] s with
      | none => rfl
      | some s1 => exact ih (i + 1) s1 (by omega) (by omega)
    · have hil : i = length := by omega
      subst hil
      rw [if_neg hlt, List.drop_of_length_le (by rw [List.length_take]; omega)]
      rfl

theorem crc16_calculate_unfold (w fuel initial : Nat) (data : List Nat) (length : Nat)
    (p : State) (hlen : length < 256) :
    crc16_calculate w fuel initial data length p =
      crc16_calculate_loop w fuel data length fuel 0 (crc16_init (initial % 256) p) := by
  have h : length % 2 ^ UCHAR_BITS = length := Nat.mod_eq_of_lt hlen
  unfold crc16_calculate
  simp only [h]
  rfl

theorem crc16_calculate_eq (w fuel initial : Nat) (data : List Nat) (length : Nat) (p : State)
    (hfuel : 9 ≤ fuel) (hfuel2 : length < fuel)
    (hlen : length < 256) (hdata : length ≤ data.length) :
    crc16_calculate w fuel initial data length p =
      some { crc_register := crcFoldW w (initial % 256) (data.take length) } := by
  rw [crc16_calculate_unfold w fuel initial data length p hlen,
    crc16_calculate_loop_eq w fuel data length hlen hdata fuel 0 _ (by omega) (by omega),
    List.drop_zero, crc16_update_each_eq w fuel hfuel]
  rfl

theorem crc16_calculate_length_zero_eq (w fuel initial : Nat) (data : List Nat) (p : State)
    (hfuel : 1 ≤ fuel) :
    crc16_calculate w fuel initial data 0 p = some { crc_register := initial % 256 } := by
  obtain ⟨n, rfl⟩ : ∃ n, fuel = n + 1 := ⟨fuel - 1, by omega⟩
  rfl

/-! ## The low 16 bits of the register -/

theorem step_lt (c d : Nat) : step c d < 2 ^ 16 := by
  unfold step
  have ht : (2 * c) % 2 ^ 16 < 2 ^ 16 := Nat.mod_lt _ (by norm_num)
  simp only
  split
  · exact Nat.xor_lt_two_pow ht (by norm_num)
  · exact ht

theorem bitSteps_lt (c b : Nat) : bitSteps c b < 2 ^ 16 := step_lt _ _

theorem xor_mod_two_pow (a b n : Nat) : (a ^^^ b) % 2 ^ n = (a % 2 ^ n) ^^^ (b % 2 ^ n) := by
  apply Nat.eq_of_testBit_eq
  intro i
  simp only [Nat.testBit_mod_two_pow, Nat.testBit_xor]
  cases decide (i < n) <;> simp

theorem step_mod (c d : Nat) : step (c % 2 ^ 16) d = step c d := by
  unfold step bitAt
  have h1 : (2 * (c % 2 ^ 16)) % 2 ^ 16 = (2 * c) % 2 ^ 16 := by omega
  have h2 : (c % 2 ^ 16) / 2 ^ 15 % 2 = c / 2 ^ 15 % 2 := by omega
  rw [h1, h2]

theorem stepW_mod (w c d : Nat) (hw : 16 ≤ w) : stepW w c d % 2 ^ 16 = step c d := by
  unfold stepW step
  have h1 : (2 * c) % 2 ^ w % 2 ^ 16 = (2 * c) % 2 ^ 16 :=
    Nat.mod_mod_of_dvd _ (Nat.pow_dvd_pow 2 hw)
  simp only
  split
  · rw [xor_mod_two_pow, h1]
    rfl
  · exact h1

theorem stepW_mod_step (w x c d : Nat) (hw : 16 ≤ w) (h : x % 2 ^ 16 = c % 2 ^ 16) :
    stepW w x d % 2 ^ 16 = step c d % 2 ^ 16 := by
  rw [stepW_mod w x d hw, ← step_mod x, h, step_mod, Nat.mod_eq_of_lt (step_lt c d)]

theorem bitStepsW_mod (w c b : Nat) (hw : 16 ≤ w) :
    bitStepsW w c b % 2 ^ 16 = bitSteps c b := by
  unfold bitStepsW bitSteps
  have h0 := stepW_mod_step w c c (bitAt 0 b) hw rfl
  have h1 := stepW_mod_step w _ _ (bitAt 1 b) hw h0
  have h2 := stepW_mod_step w _ _ (bitAt 2 b) hw h1
  have h3 := stepW_mod_step w _ _ (bitAt 3 b) hw h2
  have h4 := stepW_mod_step w _ _ (bitAt 4 b) hw h3
  have h5 := stepW_mod_step w _ _ (bitAt 5 b) hw h4
  have h6 := stepW_mod_step w _ _ (bitAt 6 b) hw h5
  have h7 := stepW_mod_step w _ _ (bitAt 7 b) hw h6
  rw [h7, Nat.mod_eq_of_lt (step_lt _ _)]

theorem bitSteps_mod (c b : Nat) : bitSteps (c % 2 ^ 16) b = bitSteps c b := by
  unfold bitSteps
  rw [step_mod]

theorem crcFoldW_mod (w : Nat) (hw : 16 ≤ w) (bs : List Nat) (c : Nat) :
    crcFoldW w c bs % 2 ^ 16 = crcFold (c % 2 ^ 16) bs := by
  induction bs generalizing c with
  | nil => rfl
  | cons b bs ih =>
    show crcFoldW w (bitStepsW w c b) bs % 2 ^ 16 = crcFold (bitSteps (c % 2 ^ 16) b) bs
    rw [ih, bitStepsW_mod w c b hw, bitSteps_mod]

/-! ## The textbook MSB-first shift -/

theorem bitAt_eq_one_iff (k x : Nat) : bitAt k x = 1 ↔ x.testBit k = true := by
  unfold bitAt
  rw [Nat.testBit_to_div_mod]
  simp

theorem bitAt_le_one (k x : Nat) : bitAt k x ≤ 1 := by
  unfold bitAt
  omega

theorem shl_mod_xor (x y : Nat) :
    ((x ^^^ y) <<< 1) % 2 ^ 16 = ((x <<< 1) % 2 ^ 16) ^^^ ((y <<< 1) % 2 ^ 16) := by
  apply Nat.eq_of_testBit_eq
  intro i
  simp only [Nat.testBit_mod_two_pow, Nat.testBit_shiftLeft, Nat.testBit_xor]
  cases decide (i < 16) <;> cases decide (i ≥ 1) <;> simp

theorem xor_right_comm3 (a b p : Nat) : (a ^^^ b) ^^^ p = (a ^^^ p) ^^^ b := by
  rw [Nat.xor_assoc, Nat.xor_comm b p, Nat.xor_assoc]

theorem xor_cancel_both (a b p : Nat) : (a ^^^ p) ^^^ (b ^^^ p) = a ^^^ b := by
  rw [Nat.xor_assoc, Nat.xor_comm b p, ← Nat.xor_assoc p, Nat.xor_self, Nat.zero_xor]

theorem msbShift_xor (x y : Nat) : msbShift (x ^^^ y) = msbShift x ^^^ msbShift y := by
  unfold msbShift
  rw [shl_mod_xor]
  generalize (x <<< 1) % 2 ^ 16 = a
  generalize (y <<< 1) % 2 ^ 16 = b
  have hxy : bitAt 15 (x ^^^ y) = 1 ↔ ¬ (bitAt 15 x = 1 ↔ bitAt 15 y = 1) := by
    simp only [bitAt_eq_one_iff, Nat.testBit_xor]
    cases x.testBit 15 <;> cases y.testBit 15 <;> simp
  by_cases hx : bitAt 15 x = 1 <;> by_cases hy : bitAt 15 y = 1
  · rw [if_pos hx, if_pos hy, if_neg (by rw [hxy]; simp [hx, hy]), xor_cancel_both]
  · rw [if_pos hx, if_neg hy, if_pos (by rw [hxy]; simp [hx, hy]), xor_right_comm3]
  · rw [if_neg hx, if_pos hy, if_pos (by rw [hxy]; simp [hx, hy]), Nat.xor_assoc]
  · rw [if_neg hx, if_neg hy, if_neg (by rw [hxy]; simp [hx, hy])]

theorem msbShift_iterate_xor (k x y : Nat) :
    Nat.iterate msbShift k (x ^^^ y) = Nat.iterate msbShift k x ^^^ Nat.iterate msbShift k y := by
  induction k generalizing x y with
  | zero => rfl
  | succ k ih =>
    rw [Function.iterate_succ_apply, Function.iterate_succ_apply, Function.iterate_succ_apply,
      msbShift_xor, ih]

theorem step_eq_msbShift (c d : Nat) (hd : d ≤ 1) : step c d = msbShift (c ^^^ d * 2 ^ 15) := by
  have hd01 : d = 0 ∨ d = 1 := by omega
  have h2 : 2 * c = c <<< 1 := by rw [Nat.shiftLeft_eq]; ring
  have hb := bitAt_le_one 15 c
  rcases hd01 with rfl | rfl
  · rw [Nat.zero_mul, Nat.xor_zero]
    unfold step msbShift
    rw [h2]
    by_cases h : bitAt 15 c = 1
    · rw [if_pos h, if_pos (by omega)]
    · rw [if_neg h, if_neg (by omega)]
  · rw [msbShift_xor, Nat.one_mul]
    have hP : msbShift (2 ^ 15) = 0x8005 := by decide
    rw [hP]
    unfold step msbShift
    rw [h2]
    by_cases h : bitAt 15 c = 1
    · rw [if_pos h, if_neg (by omega), Nat.xor_assoc, Nat.xor_self, Nat.xor_zero]
    · rw [if_neg h, if_pos (by omega)]

theorem msbShift_iterate_bit (k d : Nat) (hk : k ≤ 7) (hd : d ≤ 1) :
    Nat.iterate msbShift k (d * 2 ^ (15 - k)) = d * 2 ^ 15 := by
  have hd01 : d = 0 ∨ d = 1 := by omega
  interval_cases k <;> rcases hd01 with rfl | rfl <;> decide

theorem step_iterate (k x d : Nat) (hk : k ≤ 7) (hd : d ≤ 1) :
    step (Nat.iterate msbShift k x) d = Nat.iterate msbShift (k + 1) (x ^^^ d * 2 ^ (15 - k)) := by
  rw [step_eq_msbShift _ _ hd, ← msbShift_iterate_bit k d hk hd, ← msbShift_iterate_xor,
    Function.iterate_succ_apply']

theorem xor_bits_eq_rev8_shift :
    ∀ d0 < 2, ∀ d1 < 2, ∀ d2 < 2, ∀ d3 < 2, ∀ d4 < 2, ∀ d5 < 2, ∀ d6 < 2, ∀ d7 < 2,
      (d0 * 2 ^ 15 ^^^ (d1 * 2 ^ 14 ^^^ (d2 * 2 ^ 13 ^^^ (d3 * 2 ^ 12 ^^^ (d4 * 2 ^ 11 ^^^
        (d5 * 2 ^ 10 ^^^ (d6 * 2 ^ 9 ^^^ d7 * 2 ^ 8))))))) =
      (d0 * 128 + d1 * 64 + d2 * 32 + d3 * 16 + d4 * 8 + d5 * 4 + d6 * 2 + d7) <<< 8 := by
  intro d0 h0 d1 h1 d2 h2 d3 h3 d4 h4 d5 h5 d6 h6 d7 h7
  interval_cases d0 <;> interval_cases d1 <;> interval_cases d2 <;> interval_cases d3 <;>
    interval_cases d4 <;> interval_cases d5 <;> interval_cases d6 <;> interval_cases d7 <;> rfl

theorem bitSteps_eq_msbByteStep (c b : Nat) : bitSteps c b = msbByteStep c (rev8 b) := by
  unfold bitSteps msbByteStep rev8
  have h0 := step_iterate 0 c (bitAt 0 b) (by omega) (bitAt_le_one 0 b)
  rw [Function.iterate_zero_apply] at h0
  rw [h0, step_iterate 1 _ _ (by omega) (bitAt_le_one 1 b),
    step_iterate 2 _ _ (by omega) (bitAt_le_one 2 b),
    step_iterate 3 _ _ (by omega) (bitAt_le_one 3 b),
    step_iterate 4 _ _ (by omega) (bitAt_le_one 4 b),
    step_iterate 5 _ _ (by omega) (bitAt_le_one 5 b),
    step_iterate 6 _ _ (by omega) (bitAt_le_one 6 b),
    step_iterate 7 _ _ (by omega) (bitAt_le_one 7 b)]
  have hx := xor_bits_eq_rev8_shift (bitAt 0 b) (by have := bitAt_le_one 0 b; omega)
    (bitAt 1 b) (by have := bitAt_le_one 1 b; omega)
    (bitAt 2 b) (by have := bitAt_le_one 2 b; omega)
    (bitAt 3 b) (by have := bitAt_le_one 3 b; omega)
    (bitAt 4 b) (by have := bitAt_le_one 4 b; omega)
    (bitAt 5 b) (by have := bitAt_le_one 5 b; omega)
    (bitAt 6 b) (by have := bitAt_le_one 6 b; omega)
    (bitAt 7 b) (by have := bitAt_le_one 7 b; omega)
  rw [← hx]
  simp only [Nat.xor_assoc]

/-! ## Linearity and injectivity -/

theorem bitAt_eq_toNat (k x : Nat) : bitAt k x = (x.testBit k).toNat :=
  (Nat.toNat_testBit x k).symm

theorem bitAt_xor (k a b : Nat) : bitAt k (a ^^^ b) = bitAt k a ^^^ bitAt k b := by
  rw [bitAt_eq_toNat, bitAt_eq_toNat, bitAt_eq_toNat, Nat.testBit_xor]
  cases a.testBit k <;> cases b.testBit k <;> rfl

theorem step_xor (c1 c2 d1 d2 : Nat) (h1 : d1 ≤ 1) (h2 : d2 ≤ 1) :
    step (c1 ^^^ c2) (d1 ^^^ d2) = step c1 d1 ^^^ step c2 d2 := by
  have e1 : d1 = 0 ∨ d1 = 1 := by omega
  have e2 : d2 = 0 ∨ d2 = 1 := by omega
  have hd : d1 ^^^ d2 ≤ 1 := by
    rcases e1 with rfl | rfl <;> rcases e2 with rfl | rfl <;> decide
  have hm : (d1 ^^^ d2) * 2 ^ 15 = d1 * 2 ^ 15 ^^^ d2 * 2 ^ 15 := by
    rcases e1 with rfl | rfl <;> rcases e2 with rfl | rfl <;> decide
  rw [step_eq_msbShift _ _ hd, step_eq_msbShift _ _ h1, step_eq_msbShift _ _ h2,
    ← msbShift_xor, hm]
  congr 1
  rw [Nat.xor_assoc, Nat.xor_assoc, ← Nat.xor_assoc c2, Nat.xor_comm c2 (d1 * 2 ^ 15),
    Nat.xor_assoc]

theorem bitSteps_xor (c1 c2 b1 b2 : Nat) :
    bitSteps (c1 ^^^ c2) (b1 ^^^ b2) = bitSteps c1 b1 ^^^ bitSteps c2 b2 := by
  unfold bitSteps
  simp only [bitAt_xor]
  rw [step_xor _ _ _ _ (bitAt_le_one 0 b1) (bitAt_le_one 0 b2),
    step_xor _ _ _ _ (bitAt_le_one 1 b1) (bitAt_le_one 1 b2),
    step_xor _ _ _ _ (bitAt_le_one 2 b1) (bitAt_le_one 2 b2),
    step_xor _ _ _ _ (bitAt_le_one 3 b1) (bitAt_le_one 3 b2),
    step_xor _ _ _ _ (bitAt_le_one 4 b1) (bitAt_le_one 4 b2),
    step_xor _ _ _ _ (bitAt_le_one 5 b1) (bitAt_le_one 5 b2),
    step_xor _ _ _ _ (bitAt_le_one 6 b1) (bitAt_le_one 6 b2),
    step_xor _ _ _ _ (bitAt_le_one 7 b1) (bitAt_le_one 7 b2)]

theorem crcFold_xor (xs ys : List Nat) (hlen : xs.length = ys.length) (c1 c2 : Nat) :
    crcFold (c1 ^^^ c2) (List.zipWith (fun x y => x ^^^ y) xs ys) =
      crcFold c1 xs ^^^ crcFold c2 ys := by
  induction xs generalizing ys c1 c2 with
  | nil =>
    cases ys with
    | nil => rfl
    | cons y ys => simp at hlen
  | cons x xs ih =>
    cases ys with
    | nil => simp at hlen
    | cons y ys =>
      show crcFold (bitSteps (c1 ^^^ c2) (x ^^^ y)) (List.zipWith _ xs ys) =
        crcFold (bitSteps c1 x) xs ^^^ crcFold (bitSteps c2 y) ys
      rw [bitSteps_xor]
      exact ih ys (by simpa using hlen) _ _

theorem msbShift_lt (x : Nat) : msbShift x < 2 ^ 16 := by
  unfold msbShift
  have ht : (x <<< 1) % 2 ^ 16 < 2 ^ 16 := Nat.mod_lt _ (by norm_num)
  split
  · exact Nat.xor_lt_two_pow ht (by norm_num)
  · exact ht

theorem msbShift_eq_zero (x : Nat) (hx : x < 2 ^ 16) (h : msbShift x = 0) : x = 0 := by
  unfold msbShift at h
  rw [Nat.shiftLeft_eq] at h
  by_cases hb : bitAt 15 x = 1
  · rw [if_pos hb, Nat.xor_eq_zero] at h
    omega
  · rw [if_neg hb] at h
    unfold bitAt at hb
    omega

theorem msbShift_injective (x y : Nat) (hx : x < 2 ^ 16) (hy : y < 2 ^ 16)
    (h : msbShift x = msbShift y) : x = y := by
  have hz : msbShift (x ^^^ y) = 0 := by
    rw [msbShift_xor, h, Nat.xor_self]
  exact Nat.xor_eq_zero.mp (msbShift_eq_zero _ (Nat.xor_lt_two_pow hx hy) hz)

theorem step_injective (c1 c2 d : Nat) (hd : d ≤ 1) (h1 : c1 < 2 ^ 16) (h2 : c2 < 2 ^ 16)
    (h : step c1 d = step c2 d) : c1 = c2 := by
  rw [step_eq_msbShift _ _ hd, step_eq_msbShift _ _ hd] at h
  have hd16 : d * 2 ^ 15 < 2 ^ 16 := by omega
  have := msbShift_injective _ _ (Nat.xor_lt_two_pow h1 hd16) (Nat.xor_lt_two_pow h2 hd16) h
  have h3 := congrArg (fun z => z ^^^ d * 2 ^ 15) this
  simpa [Nat.xor_assoc] using h3

theorem bitSteps_injective (c1 c2 b : Nat) (h1 : c1 < 2 ^ 16) (h2 : c2 < 2 ^ 16)
    (h : bitSteps c1 b = bitSteps c2 b) : c1 = c2 := by
  unfold bitSteps at h
  have i7 := step_injective _ _ _ (bitAt_le_one 7 b) (step_lt _ _) (step_lt _ _) h
  have i6 := step_injective _ _ _ (bitAt_le_one 6 b) (step_lt _ _) (step_lt _ _) i7
  have i5 := step_injective _ _ _ (bitAt_le_one 5 b) (step_lt _ _) (step_lt _ _) i6
  have i4 := step_injective _ _ _ (bitAt_le_one 4 b) (step_lt _ _) (step_lt _ _) i5
  have i3 := step_injective _ _ _ (bitAt_le_one 3 b) (step_lt _ _) (step_lt _ _) i4
  have i2 := step_injective _ _ _ (bitAt_le_one 2 b) (step_lt _ _) (step_lt _ _) i3
  have i1 := step_injective _ _ _ (bitAt_le_one 1 b) (step_lt _ _) (step_lt _ _) i2
  exact step_injective _ _ _ (bitAt_le_one 0 b) h1 h2 i1

theorem crcFold_injective (bs : List Nat) (c1 c2 : Nat) (h1 : c1 < 2 ^ 16) (h2 : c2 < 2 ^ 16)
    (h : crcFold c1 bs = crcFold c2 bs) : c1 = c2 := by
  induction bs generalizing c1 c2 with
  | nil => exact h
  | cons b bs ih =>
    exact bitSteps_injective c1 c2 b h1 h2 (ih _ _ (bitSteps_lt c1 b) (bitSteps_lt c2 b) h)

theorem bitSteps_byte_ne_zero (e : Nat) (h0 : 0 < e) (h256 : e < 256) : bitSteps 0 e ≠ 0 := by
  interval_cases e <;> decide

theorem bitSteps_byte_ne (c x y : Nat) (hx : x < 256) (hy : y < 256) (hne : x ≠ y) :
    bitSteps c x ≠ bitSteps c y := by
  intro h
  have hz : bitSteps 0 (x ^^^ y) = 0 := by
    have := bitSteps_xor c c x y
    rw [Nat.xor_self, h, Nat.xor_self] at this
    exact this
  have hlt : x ^^^ y < 2 ^ 8 := Nat.xor_lt_two_pow (by omega) (by omega)
  have hpos : 0 < x ^^^ y := Nat.pos_of_ne_zero (fun h0 => hne (Nat.xor_eq_zero.mp h0))
  exact bitSteps_byte_ne_zero _ hpos (by omega) hz

theorem crcFold_one_byte_differs (xs : List Nat) :
    ∀ (ys : List Nat) (c i : Nat), xs.length = ys.length →
      (∀ x ∈ xs, x < 256) → (∀ y ∈ ys, y < 256) →
      xs[i]? ≠ ys[i]? → (∀ j : Nat, j ≠ i → xs[j]? = ys[j]?) →
      crcFold c xs ≠ crcFold c ys := by
  induction xs with
  | nil =>
    intro ys c i hlen _ _ hne _
    cases ys with
    | nil => exact absurd rfl hne
    | cons y ys => simp at hlen
  | cons x xs ih =>
    intro ys c i hlen hxs hys hne hsame
    cases ys with
    | nil => simp at hlen
    | cons y ys =>
      have hx : x < 256 := hxs x (List.mem_cons_self _ _)
      have hy : y < 256 := hys y (List.mem_cons_self _ _)
      show crcFold (bitSteps c x) xs ≠ crcFold (bitSteps c y) ys
      cases i with
      | zero =>
        have hxy : x ≠ y := by
          intro h
          apply hne
          simp [h]
        have htail : xs = ys := by
          apply List.ext_getElem?
          intro j
          have := hsame (j + 1) (by omega)
          simpa using this
        rw [htail]
        intro h
        exact bitSteps_byte_ne c x y hx hy hxy
          (crcFold_injective ys _ _ (bitSteps_lt c x) (bitSteps_lt c y) h)
      | succ i =>
        have hxy : x = y := by
          have := hsame 0 (by omega)
          simpa using this
        rw [hxy]
        refine ih ys (bitSteps c y) i (by simpa using hlen)
          (fun a ha => hxs a (List.mem_cons_of_mem _ ha))
          (fun a ha => hys a (List.mem_cons_of_mem _ ha)) ?_ ?_
        · simpa using hne
        · intro j hj
          have := hsame (j + 1) (by omega)
          simpa using this

/-! ## Linearity at every register width -/

theorem shl_mod_xor_W (w x y : Nat) :
    (2 * (x ^^^ y)) % 2 ^ w = ((2 * x) % 2 ^ w) ^^^ ((2 * y) % 2 ^ w) := by
  have h : ∀ z : Nat, 2 * z = z <<< 1 := by
    intro z
    rw [Nat.shiftLeft_eq]; ring
  rw [h, h, h]
  apply Nat.eq_of_testBit_eq
  intro i
  simp only [Nat.testBit_mod_two_pow, Nat.testBit_shiftLeft, Nat.testBit_xor]
  cases decide (i < w) <;> cases decide (i ≥ 1) <;> simp

theorem xor_xor_xor_comm4 (a b p q : Nat) :
    (a ^^^ b) ^^^ (p ^^^ q) = (a ^^^ p) ^^^ (b ^^^ q) := by
  rw [Nat.xor_assoc, Nat.xor_assoc, ← Nat.xor_assoc b p q, Nat.xor_comm b p, Nat.xor_assoc p b q]

theorem stepW_eq_xor (w c d : Nat) :
    stepW w c d = ((2 * c) % 2 ^ w) ^^^ (if d ≠ bitAt 15 c then 0x8005 else 0) := by
  unfold stepW
  simp only
  split
  · rfl
  · rw [Nat.xor_zero]

theorem flip_xor (d1 d2 u v : Nat) (h1 : d1 ≤ 1) (h2 : d2 ≤ 1) (hu : u ≤ 1) (hv : v ≤ 1) :
    (if (d1 ^^^ d2) ≠ (u ^^^ v) then 0x8005 else 0) =
      (if d1 ≠ u then 0x8005 else 0) ^^^ (if d2 ≠ v then 0x8005 else 0) := by
  have e1 : d1 = 0 ∨ d1 = 1 := by omega
  have e2 : d2 = 0 ∨ d2 = 1 := by omega
  have e3 : u = 0 ∨ u = 1 := by omega
  have e4 : v = 0 ∨ v = 1 := by omega
  rcases e1 with rfl | rfl <;> rcases e2 with rfl | rfl <;> rcases e3 with rfl | rfl <;>
    rcases e4 with rfl | rfl <;> decide

theorem stepW_xor (w c1 c2 d1 d2 : Nat) (h1 : d1 ≤ 1) (h2 : d2 ≤ 1) :
    stepW w (c1 ^^^ c2) (d1 ^^^ d2) = stepW w c1 d1 ^^^ stepW w c2 d2 := by
  rw [stepW_eq_xor, stepW_eq_xor, stepW_eq_xor, shl_mod_xor_W, bitAt_xor,
    flip_xor d1 d2 _ _ h1 h2 (bitAt_le_one 15 c1) (bitAt_le_one 15 c2), xor_xor_xor_comm4]

theorem bitStepsW_xor (w c1 c2 b1 b2 : Nat) :
    bitStepsW w (c1 ^^^ c2) (b1 ^^^ b2) = bitStepsW w c1 b1 ^^^ bitStepsW w c2 b2 := by
  unfold bitStepsW
  simp only [bitAt_xor]
  rw [stepW_xor _ _ _ _ _ (bitAt_le_one 0 b1) (bitAt_le_one 0 b2),
    stepW_xor _ _ _ _ _ (bitAt_le_one 1 b1) (bitAt_le_one 1 b2),
    stepW_xor _ _ _ _ _ (bitAt_le_one 2 b1) (bitAt_le_one 2 b2),
    stepW_xor _ _ _ _ _ (bitAt_le_one 3 b1) (bitAt_le_one 3 b2),
    stepW_xor _ _ _ _ _ (bitAt_le_one 4 b1) (bitAt_le_one 4 b2),
    stepW_xor _ _ _ _ _ (bitAt_le_one 5 b1) (bitAt_le_one 5 b2),
    stepW_xor _ _ _ _ _ (bitAt_le_one 6 b1) (bitAt_le_one 6 b2),
    stepW_xor _ _ _ _ _ (bitAt_le_one 7 b1) (bitAt_le_one 7 b2)]

theorem crcFoldW_xor (w : Nat) (xs ys : List Nat) (hlen : xs.length = ys.length)
    (c1 c2 : Nat) :
    crcFoldW w (c1 ^^^ c2) (List.zipWith (fun x y => x ^^^ y) xs ys) =
      crcFoldW w c1 xs ^^^ crcFoldW w c2 ys := by
  induction xs generalizing ys c1 c2 with
  | nil =>
    cases ys with
    | nil => rfl
    | cons y ys => simp at hlen
  | cons x xs ih =>
    cases ys with
    | nil => simp at hlen
    | cons y ys =>
      show crcFoldW w (bitStepsW w (c1 ^^^ c2) (x ^^^ y)) (List.zipWith _ xs ys) =
        crcFoldW w (bitStepsW w c1 x) xs ^^^ crcFoldW w (bitStepsW w c2 y) ys
      rw [bitStepsW_xor]
      exact ih ys (by simpa using hlen) _ _

/-! ## Loop counts -/

theorem crc16_update_loop_short (w data fuel : Nat) (s : State) (hfuel : fuel ≤ 8) :
    crc16_update_loop w data fuel 0x01 s = none := by
  interval_cases fuel <;> rfl

theorem crc16_calculate_loop_short (w fuel : Nat) (data : List Nat) (length : Nat)
    (hfuel : 9 ≤ fuel) (hlen : length < 256) (hdata : length ≤ data.length) :
    ∀ (n i : Nat) (s : State), n + i ≤ length →
      crc16_calculate_loop w fuel data length n i s = none := by
  intro n
  induction n with
  | zero => intro i s _; rfl
  | succ n ih =>
    intro i s hi
    have hlt : i < length := by omega
    have hid : i < data.length := by omega
    have hmod : (i + 1) % 2 ^ UCHAR_BITS = i + 1 := by
      show (i + 1) % 256 = i + 1
      omega
    rw [crc16_calculate_loop, if_pos hlt, List.getElem?_eq_getElem hid]
    dsimp only
    rw [crc16_update_eq w fuel _ _ hfuel]
    dsimp only
    rw [hmod]
    exact ih (i + 1) _ (by omega)

theorem crc16_result_array_eq (v : Nat) (out : List Nat) (hout : 2 ≤ out.length) :
    (crc16_result_array out { crc_register := v }).1 =
      (v % 256) :: ((v / 256) % 256) :: out.drop 2 := by
  have h0 : (v &&& 0x00FF) % 2 ^ UCHAR_BITS = v % 256 := by
    have h := Nat.and_pow_two_sub_one_eq_mod v 8
    have h' : v &&& 0x00FF = v % 256 := h
    rw [h']
    exact Nat.mod_mod _ _
  have h1 : (v >>> 8) % 2 ^ UCHAR_BITS = (v / 256) % 256 := by
    rw [Nat.shiftRight_eq_div_pow]
    rfl
  match out, hout with
  | a :: b :: rest, _ =>
    show (((a :: b :: rest).set 0 ((v &&& 0x00FF) % 2 ^ UCHAR_BITS)).set 1
      ((v >>> 8) % 2 ^ UCHAR_BITS)) = _
    rw [h0, h1]
    rfl

/-! ## The accumulator as a polynomial over GF(2) -/

open Polynomial in
theorem cast_xor_bit (u v : Nat) (hu : u ≤ 1) (hv : v ≤ 1) :
    (((u ^^^ v : Nat)) : ZMod 2) = (u : ZMod 2) + (v : ZMod 2) := by
  have eu : u = 0 ∨ u = 1 := by omega
  have ev : v = 0 ∨ v = 1 := by omega
  rcases eu with rfl | rfl <;> rcases ev with rfl | rfl <;> decide

open Polynomial in
theorem accPoly_xor (a b : Nat) : accPoly (a ^^^ b) = accPoly a + accPoly b := by
  unfold accPoly
  rw [← Finset.sum_add_distrib]
  apply Finset.sum_congr rfl
  intro i _
  rw [bitAt_xor, cast_xor_bit _ _ (bitAt_le_one i a) (bitAt_le_one i b), C_add, add_mul]

theorem bitAt_shl_succ (i y : Nat) (hi : i + 1 < 16) :
    bitAt (i + 1) ((y <<< 1) % 2 ^ 16) = bitAt i y := by
  rw [bitAt_eq_toNat, bitAt_eq_toNat, Nat.testBit_mod_two_pow, Nat.testBit_shiftLeft]
  simp [hi]

theorem bitAt_shl_zero (y : Nat) : bitAt 0 ((y <<< 1) % 2 ^ 16) = 0 := by
  rw [bitAt_eq_toNat, Nat.testBit_mod_two_pow, Nat.testBit_shiftLeft]
  simp

open Polynomial in
theorem X_mul_accPoly (y : Nat) :
    X * accPoly y = accPoly ((y <<< 1) % 2 ^ 16) + C ((bitAt 15 y : Nat) : ZMod 2) * X ^ 16 := by
  unfold accPoly
  rw [Finset.mul_sum, Finset.sum_range_succ _ 15, Finset.sum_range_succ' _ 15, bitAt_shl_zero]
  have h : ∀ i ∈ Finset.range 15,
      C ((bitAt (i + 1) ((y <<< 1) % 2 ^ 16) : Nat) : ZMod 2) * X ^ (i + 1) =
        X * (C ((bitAt i y : Nat) : ZMod 2) * X ^ i) := by
    intro i hi
    rw [bitAt_shl_succ i y (by have := Finset.mem_range.mp hi; omega)]
    ring
  rw [Finset.sum_congr rfl h]
  simp only [Nat.cast_zero, map_zero, zero_mul, add_zero]
  ring

open Polynomial in
theorem accPoly_poly : accPoly 0x8005 = X ^ 15 + X ^ 2 + 1 := by
  unfold accPoly
  have b0 : bitAt 0 0x8005 = 1 := by decide
  have b1 : bitAt 1 0x8005 = 0 := by decide
  have b2 : bitAt 2 0x8005 = 1 := by decide
  have b3 : bitAt 3 0x8005 = 0 := by decide
  have b4 : bitAt 4 0x8005 = 0 := by decide
  have b5 : bitAt 5 0x8005 = 0 := by decide
  have b6 : bitAt 6 0x8005 = 0 := by decide
  have b7 : bitAt 7 0x8005 = 0 := by decide
  have b8 : bitAt 8 0x8005 = 0 := by decide
  have b9 : bitAt 9 0x8005 = 0 := by decide
  have b10 : bitAt 10 0x8005 = 0 := by decide
  have b11 : bitAt 11 0x8005 = 0 := by decide
  have b12 : bitAt 12 0x8005 = 0 := by decide
  have b13 : bitAt 13 0x8005 = 0 := by decide
  have b14 : bitAt 14 0x8005 = 0 := by decide
  have b15 : bitAt 15 0x8005 = 1 := by decide
  simp only [Finset.sum_range_succ, Finset.sum_range_zero, b0, b1, b2, b3, b4, b5, b6, b7, b8, b9, b10, b11, b12, b13, b14, b15]
  simp only [Nat.cast_zero, Nat.cast_one, map_zero, map_one, zero_mul, one_mul, zero_add,
    add_zero, pow_zero]
  ring

open Polynomial in
theorem accPoly_zero : accPoly 0 = 0 := by
  unfold accPoly
  apply Finset.sum_eq_zero
  intro i _
  have h : bitAt i 0 = 0 := by unfold bitAt; simp
  rw [h, Nat.cast_zero, map_zero, zero_mul]

open Polynomial in
theorem accPoly_top_bit (d : Nat) (hd : d ≤ 1) :
    accPoly (d * 2 ^ 15) = C ((d : Nat) : ZMod 2) * X ^ 15 := by
  have e : d = 0 ∨ d = 1 := by omega
  rcases e with rfl | rfl
  · rw [Nat.zero_mul, accPoly_zero, Nat.cast_zero, map_zero, zero_mul]
  · unfold accPoly
    have hb : ∀ i ∈ Finset.range 15,
        C ((bitAt i (1 * 2 ^ 15) : Nat) : ZMod 2) * X ^ i = 0 := by
      intro i hi
      have hi15 : i < 15 := Finset.mem_range.mp hi
      have h : bitAt i (1 * 2 ^ 15) = 0 := by
        interval_cases i <;> decide
      rw [h, Nat.cast_zero, map_zero, zero_mul]
    have h15 : bitAt 15 (1 * 2 ^ 15) = 1 := by decide
    rw [Finset.sum_range_succ _ 15, Finset.sum_eq_zero hb, h15, zero_add]

open Polynomial in
theorem two_mul_eq_zero (q : Polynomial (ZMod 2)) : q + q = 0 := by
  have h : (1 : Polynomial (ZMod 2)) + 1 = 0 := by
    have h2 : (1 : ZMod 2) + 1 = 0 := by decide
    rw [← C_1, ← C_add, h2, C_0]
  linear_combination q * h

open Polynomial in
theorem accPoly_msbShift (y : Nat) :
    accPoly (msbShift y) =
      accPoly ((y <<< 1) % 2 ^ 16) + C ((bitAt 15 y : Nat) : ZMod 2) * (X ^ 15 + X ^ 2 + 1) := by
  unfold msbShift
  have hb := bitAt_le_one 15 y
  by_cases h : bitAt 15 y = 1
  · rw [if_pos h, accPoly_xor, accPoly_poly, h, Nat.cast_one, map_one, one_mul]
  · have h0 : bitAt 15 y = 0 := by omega
    rw [if_neg h, h0, Nat.cast_zero, map_zero, zero_mul, add_zero]

open Polynomial in
theorem accPoly_step (c d : Nat) (hd : d ≤ 1) :
    accPoly c * X + C ((d : Nat) : ZMod 2) * X ^ 16 =
      C ((bitAt 15 (c ^^^ d * 2 ^ 15) : Nat) : ZMod 2) * genPoly + accPoly (step c d) := by
  have hX := X_mul_accPoly (c ^^^ d * 2 ^ 15)
  rw [accPoly_xor, accPoly_top_bit d hd] at hX
  rw [step_eq_msbShift c d hd, accPoly_msbShift]
  unfold genPoly
  have h2 := two_mul_eq_zero
    (C ((bitAt 15 (c ^^^ d * 2 ^ 15) : Nat) : ZMod 2) * (X ^ 15 + X ^ 2 + 1))
  linear_combination hX - h2

open Polynomial in
theorem accPoly_foldl_step (bits : List Nat) (hbits : ∀ d ∈ bits, d ≤ 1) :
    ∀ (c : Nat) (P Q : Polynomial (ZMod 2)), P * X ^ 16 = Q * genPoly + accPoly c →
      ∃ Q1 : Polynomial (ZMod 2),
        bits.foldl (fun q d => q * X + C ((d : Nat) : ZMod 2)) P * X ^ 16 =
          Q1 * genPoly + accPoly (bits.foldl step c) := by
  induction bits with
  | nil =>
    intro c P Q h
    exact ⟨Q, h⟩
  | cons d bits ih =>
    intro c P Q h
    have hd : d ≤ 1 := hbits d (List.mem_cons_self _ _)
    have hs := accPoly_step c d hd
    apply ih (fun a ha => hbits a (List.mem_cons_of_mem _ ha)) (step c d)
      (P * X + C ((d : Nat) : ZMod 2))
      (Q * X + C ((bitAt 15 (c ^^^ d * 2 ^ 15) : Nat) : ZMod 2))
    linear_combination X * h + hs

theorem crcFold_eq_foldl_step (m : List Nat) (c : Nat) :
    crcFold c m = (messageBits m).foldl step c := by
  induction m generalizing c with
  | nil => rfl
  | cons b bs ih =>
    show crcFold (bitSteps c b) bs = _
    rw [ih]
    rfl

theorem messageBits_le_one (m : List Nat) : ∀ d ∈ messageBits m, d ≤ 1 := by
  induction m with
  | nil => intro d hd; cases hd
  | cons b bs ih =>
    intro d hd
    simp only [messageBits, List.mem_cons] at hd
    rcases hd with h | h | h | h | h | h | h | h | h
    · rw [h]; exact bitAt_le_one _ _
    · rw [h]; exact bitAt_le_one _ _
    · rw [h]; exact bitAt_le_one _ _
    · rw [h]; exact bitAt_le_one _ _
    · rw [h]; exact bitAt_le_one _ _
    · rw [h]; exact bitAt_le_one _ _
    · rw [h]; exact bitAt_le_one _ _
    · rw [h]; exact bitAt_le_one _ _
    · exact ih d h

open Polynomial in
theorem genPoly_monic : genPoly.Monic := by
  unfold genPoly
  monicity!

open Polynomial in
theorem genPoly_degree : genPoly.degree = 16 := by
  unfold genPoly
  compute_degree!

open Polynomial in
theorem accPoly_degree_lt (c : Nat) : (accPoly c).degree < genPoly.degree := by
  rw [genPoly_degree]
  unfold accPoly
  refine lt_of_le_of_lt (degree_sum_le _ _) ?_
  rw [Finset.sup_lt_iff (by exact WithBot.bot_lt_coe _)]
  intro i hi
  refine lt_of_le_of_lt (degree_C_mul_X_pow_le i _) ?_
  have := Finset.mem_range.mp hi
  exact_mod_cast this

open Polynomial in
theorem accPoly_crcFold (m : List Nat) :
    accPoly (crcFold 0 m) = (bitsPoly (messageBits m) * X ^ 16) % genPoly := by
  obtain ⟨Q, hQ⟩ := accPoly_foldl_step (messageBits m) (messageBits_le_one m) 0 0 0
    (by rw [accPoly_zero]; ring)
  rw [crcFold_eq_foldl_step, ← modByMonic_eq_mod _ genPoly_monic]
  refine ((div_modByMonic_unique Q _ genPoly_monic ⟨?_, accPoly_degree_lt _⟩).2).symm
  unfold bitsPoly
  rw [hQ]
  ring

open Polynomial in
theorem accPoly_mod (n : Nat) : accPoly (n % 2 ^ 16) = accPoly n := by
  unfold accPoly
  apply Finset.sum_congr rfl
  intro i hi
  have hi16 : i < 16 := Finset.mem_range.mp hi
  have h : bitAt i (n % 2 ^ 16) = bitAt i n := by
    rw [bitAt_eq_toNat, bitAt_eq_toNat, Nat.testBit_mod_two_pow]
    simp [hi16]
  rw [h]

/-! ## What holds of the low 16 bits, and at width 16 -/

/-- At every width of at least 16 bits, the low 16 bits of the register after
`crc16_update` are the eight 16-bit single-bit steps of the old register. -/
theorem crc16_update_low16 (w fuel b c : Nat) (hw : 16 ≤ w) (hfuel : 9 ≤ fuel) :
    ∃ r : State, crc16_update w fuel b { crc_register := c } = some r ∧
      r.crc_register % 2 ^ 16 = bitSteps c b :=
  ⟨_, crc16_update_eq w fuel b _ hfuel, bitStepsW_mod w c b hw⟩

/-- When `unsigned int` is exactly 16 bits wide, the register after `crc16_update`
is the eight 16-bit single-bit steps of the old register. -/
theorem crc16_update_width_16 (fuel b c : Nat) (hfuel : 9 ≤ fuel) :
    crc16_update 16 fuel b { crc_register := c } = some { crc_register := bitSteps c b } :=
  crc16_update_eq 16 fuel b _ hfuel

/-- At every width of at least 16 bits, the low 16 bits of the register after
feeding `bs` are the 16-bit fold over `bs` of the low 16 bits of the seed. -/
theorem crc16_update_each_low16 (w fuel c : Nat) (bs : List Nat) (hw : 16 ≤ w)
    (hfuel : 9 ≤ fuel) :
    ∃ r : State, crc16_update_each w fuel bs { crc_register := c } = some r ∧
      r.crc_register % 2 ^ 16 = crcFold (c % 2 ^ 16) bs :=
  ⟨_, crc16_update_each_eq w fuel hfuel bs _, crcFoldW_mod w hw bs c⟩

/-! ## The claims -/

/-- C1: built with a 32-bit `unsigned int`, `crc16_update(0x41)` started from the
16-bit accumulator value `0xFFFF` leaves `0xD4FE0E`, while the eight single-bit
steps of the claim (each reducing modulo `2 ^ 16`) give `0xFE0E`: the shift
`crc_register <<= 1` keeps the bits above bit 15. -/
theorem crc16_update_eight_steps_32_bit :
    crc16_update 32 9 0x41 { crc_register := 0xFFFF } = some { crc_register := 0xD4FE0E } ∧
    step (step (step (step (step (step (step (step 0xFFFF
      (bitAt 0 0x41)) (bitAt 1 0x41)) (bitAt 2 0x41)) (bitAt 3 0x41))
      (bitAt 4 0x41)) (bitAt 5 0x41)) (bitAt 6 0x41)) (bitAt 7 0x41) = 0xFE0E := by
  constructor <;> decide

/-- C2: `crc16_calculate(initial, data, length)` followed by `crc16_result()`
returns what `crc16_init(initial)`, then `crc16_update(data[i])` for
`i = 0, ..., length - 1`, then `crc16_result()` returns; the value depends
neither on the accumulator before the call nor on the bytes of `data` from index
`length` on.  For an argument `initial` outside `0 .. 0xFF` the seed is the
argument converted to `unsigned char`. -/
theorem crc16_calculate_eq_manual (w fuel initial length : Nat) (data : List Nat) (p : State)
    (hfuel : 9 ≤ fuel) (hfuel2 : length < fuel)
    (hlen : length ≤ 255) (hdata : length ≤ data.length) :
    (∃ r : Nat,
      (crc16_calculate w fuel initial data length p).map (fun s => (crc16_result s).1) =
        some r ∧
      (crc16_update_each w fuel (data.take length)
        (crc16_init (initial % 2 ^ UCHAR_BITS) p)).map (fun s => (crc16_result s).1) = some r) ∧
    (initial ≤ 0xFF → ∃ r : Nat,
      (crc16_calculate w fuel initial data length p).map (fun s => (crc16_result s).1) =
        some r ∧
      (crc16_update_each w fuel (data.take length) (crc16_init initial p)).map
        (fun s => (crc16_result s).1) = some r) ∧
    (∀ (p1 : State) (data1 : List Nat), length ≤ data1.length →
      data1.take length = data.take length →
      crc16_calculate w fuel initial data1 length p1 =
        crc16_calculate w fuel initial data length p) := by
  have hc := crc16_calculate_eq w fuel initial data length p hfuel hfuel2 (by omega) hdata
  refine ⟨⟨crcFoldW w (initial % 256) (data.take length), ?_, ?_⟩, ?_, ?_⟩
  · rw [hc]
    rfl
  · rw [crc16_update_each_eq w fuel hfuel]
    rfl
  · intro hi
    have hmod : initial % 256 = initial := Nat.mod_eq_of_lt (by omega)
    refine ⟨crcFoldW w initial (data.take length), ?_, ?_⟩
    · rw [hc, hmod]
      rfl
    · rw [crc16_update_each_eq w fuel hfuel]
      rfl
  · intro p1 data1 hdata1 htake
    rw [hc, crc16_calculate_eq w fuel initial data1 length p1 hfuel hfuel2 (by omega) hdata1,
      htake]

theorem crc16_calculate_eq_manual_witness :
    (∃ r : Nat,
      (crc16_calculate 32 9 0x00 [0x41, 0x42, 0x43] 2 { crc_register := 0x1234 }).map
        (fun s => (crc16_result s).1) = some r ∧
      (crc16_update_each 32 9 ([0x41, 0x42, 0x43].take 2)
        (crc16_init (0x00 % 2 ^ UCHAR_BITS) { crc_register := 0x1234 })).map
          (fun s => (crc16_result s).1) = some r) ∧
    (0x00 ≤ 0xFF → ∃ r : Nat,
      (crc16_calculate 32 9 0x00 [0x41, 0x42, 0x43] 2 { crc_register := 0x1234 }).map
        (fun s => (crc16_result s).1) = some r ∧
      (crc16_update_each 32 9 ([0x41, 0x42, 0x43].take 2)
        (crc16_init 0x00 { crc_register := 0x1234 })).map (fun s => (crc16_result s).1) =
          some r) ∧
    (∀ (p1 : State) (data1 : List Nat), 2 ≤ data1.length →
      data1.take 2 = [0x41, 0x42, 0x43].take 2 →
      crc16_calculate 32 9 0x00 data1 2 p1 =
        crc16_calculate 32 9 0x00 [0x41, 0x42, 0x43] 2 { crc_register := 0x1234 }) :=
  crc16_calculate_eq_manual 32 9 0x00 2 [0x41, 0x42, 0x43] { crc_register := 0x1234 }
    (by decide) (by decide) (by decide) (by decide)

/-- C3: `crc16_init(s)` followed at once by `crc16_result()` returns `s`, whatever
the accumulator held before. -/
theorem crc16_init_then_result (s : Nat) (p : State) :
    (crc16_result (crc16_init s p)).1 = s := rfl

/-- C4: `crc16_calculate(initial, data, 0)` returns and leaves the accumulator equal
to `initial`, for every buffer and every accumulator before the call; an argument
outside `0 .. 0xFF` is first converted to `unsigned char`. -/
theorem crc16_calculate_length_zero (w fuel initial : Nat) (data : List Nat) (p : State)
    (hfuel : 1 ≤ fuel) :
    crc16_calculate w fuel initial data 0 p =
      some { crc_register := initial % 2 ^ UCHAR_BITS } ∧
    (initial ≤ 0xFF →
      crc16_calculate w fuel initial data 0 p = some { crc_register := initial }) := by
  have h := crc16_calculate_length_zero_eq w fuel initial data p hfuel
  refine ⟨h, ?_⟩
  intro hi
  have hmod : initial % 256 = initial := Nat.mod_eq_of_lt (by omega)
  rw [h, hmod]

theorem crc16_calculate_length_zero_witness :
    crc16_calculate 32 1 0xA5 [0x41, 0x42] 0 { crc_register := 0xFFFF } =
      some { crc_register := 0xA5 % 2 ^ UCHAR_BITS } ∧
    (0xA5 ≤ 0xFF →
      crc16_calculate 32 1 0xA5 [0x41, 0x42] 0 { crc_register := 0xFFFF } =
        some { crc_register := 0xA5 }) :=
  crc16_calculate_length_zero 32 1 0xA5 [0x41, 0x42] { crc_register := 0xFFFF } (by decide)

/-- C5: with the accumulator at `v`, `crc16_result_array(out)` writes
`out[0] = v & 0xFF` and `out[1] = (v >> 8) & 0xFF` (little-endian) and leaves the
rest of the buffer as it was. -/
theorem crc16_result_array_little_endian (v : Nat) (out : List Nat) (hout : 2 ≤ out.length) :
    (crc16_result_array out { crc_register := v }).1[0]? = some (v &&& 0xFF) ∧
    (crc16_result_array out { crc_register := v }).1[1]? = some ((v >>> 8) &&& 0xFF) ∧
    (crc16_result_array out { crc_register := v }).1 =
      (v &&& 0xFF) :: ((v >>> 8) &&& 0xFF) :: out.drop 2 := by
  have h0 : (v &&& 0x00FF) % 2 ^ UCHAR_BITS = v &&& 0xFF :=
    Nat.mod_eq_of_lt (Nat.lt_of_le_of_lt Nat.and_le_right (by decide))
  have h1 : (v >>> 8) % 2 ^ UCHAR_BITS = (v >>> 8) &&& 0xFF :=
    (Nat.and_pow_two_sub_one_eq_mod (v >>> 8) 8).symm
  have hlist : (crc16_result_array out { crc_register := v }).1 =
      (v &&& 0xFF) :: ((v >>> 8) &&& 0xFF) :: out.drop 2 := by
    match out, hout with
    | a :: b :: rest, _ =>
      show (((a :: b :: rest).set 0 ((v &&& 0x00FF) % 2 ^ UCHAR_BITS)).set 1
        ((v >>> 8) % 2 ^ UCHAR_BITS)) = _
      rw [h0, h1]
      rfl
  rw [hlist]
  exact ⟨rfl, by simp, rfl⟩

theorem crc16_result_array_little_endian_witness :
    (crc16_result_array [0, 0] { crc_register := 0x030C }).1[0]? = some (0x030C &&& 0xFF) ∧
    (crc16_result_array [0, 0] { crc_register := 0x030C }).1[1]? =
      some ((0x030C >>> 8) &&& 0xFF) ∧
    (crc16_result_array [0, 0] { crc_register := 0x030C }).1 =
      (0x030C &&& 0xFF) :: ((0x030C >>> 8) &&& 0xFF) :: [0, 0].drop 2 :=
  crc16_result_array_little_endian 0x030C [0, 0] (by decide)

/-- C6: `crc16_result()` and `crc16_result_array(out)` leave the accumulator as it
was, and any number `N` of consecutive `crc16_result()` calls all return the value
the accumulator held before the first of them. -/
theorem crc16_result_reads_only (s : State) (out : List Nat) :
    (crc16_result s).2 = s ∧
    (crc16_result_array out s).2 = s ∧
    ∀ N : Nat, crc16_result_times N s = (List.replicate N s.crc_register, s) := by
  refine ⟨rfl, rfl, ?_⟩
  intro N
  induction N with
  | zero => rfl
  | succ n ih =>
    rw [crc16_result_times]
    show (s.crc_register :: (crc16_result_times n s).1, (crc16_result_times n s).2) = _
    rw [ih]
    rfl

/-- C7: built with a 32-bit `unsigned int`, after `crc16_init(0xFFFF)` and
`crc16_update` on the bytes `0xFF, 0x80, 0x01` the value `crc16_result()` returns is
`0xAA83870F`, which is not in `0 .. 0xFFFF`: the left shift in `crc16_update`
discards only the bits beyond the width of `unsigned int`. -/
theorem crc16_result_exceeds_16_bit :
    ∃ st : State,
      crc16_update_each 32 9 [0xFF, 0x80, 0x01] (crc16_init 0xFFFF { crc_register := 0 }) =
        some st ∧
      (crc16_result st).1 = 0xAA83870F ∧
      ¬ (crc16_result st).1 ≤ 0xFFFF :=
  ⟨{ crc_register := 0xAA83870F }, by decide, rfl, by decide⟩

/-- C8: with polynomial `0x8005`, `crc16_init(0x0000)` followed by
`crc16_update(0x00)` leaves the accumulator at `0x0000`, and so does
`crc16_init(0x0000)` followed by any number `n` of calls `crc16_update(0x00)`. -/
theorem crc16_zero_bytes (w fuel n : Nat) (p : State) (hfuel : 9 ≤ fuel) :
    CRC16_POLYNOM = 0x8005 ∧
    crc16_update w fuel 0x00 (crc16_init 0x0000 p) = some { crc_register := 0x0000 } ∧
    crc16_update_each w fuel (List.replicate n 0x00) (crc16_init 0x0000 p) =
      some { crc_register := 0x0000 } := by
  refine ⟨rfl, ?_, ?_⟩
  · rw [crc16_update_eq w fuel _ _ hfuel]
    show some (State.mk (bitStepsW w 0 0)) = _
    rw [bitStepsW_zero_zero]
  · rw [crc16_update_each_eq w fuel hfuel]
    show some (State.mk (crcFoldW w 0 (List.replicate n 0))) = _
    rw [crcFoldW_replicate_zero]

theorem crc16_zero_bytes_witness :
    CRC16_POLYNOM = 0x8005 ∧
    crc16_update 32 9 0x00 (crc16_init 0x0000 { crc_register := 0xBEEF }) =
      some { crc_register := 0x0000 } ∧
    crc16_update_each 32 9 (List.replicate 5 0x00)
        (crc16_init 0x0000 { crc_register := 0xBEEF }) =
      some { crc_register := 0x0000 } :=
  crc16_zero_bytes 32 9 5 { crc_register := 0xBEEF } (by decide)

/-- C9: the accumulator after `crc16_init(s)` and updates over `xs ++ ys` is the
accumulator obtained by feeding `ys` to the state reached after `crc16_init(s)`
and updates over `xs`, without seeding again, and equally the one obtained by
feeding `ys` after `crc16_init(r)`, where `r` is what `crc16_result()` returns
after `xs`. -/
theorem crc16_streaming (w fuel s : Nat) (xs ys : List Nat) (p : State) (hfuel : 9 ≤ fuel) :
    ∃ (mid fin : State),
      crc16_update_each w fuel xs (crc16_init s p) = some mid ∧
      crc16_update_each w fuel (xs ++ ys) (crc16_init s p) = some fin ∧
      crc16_update_each w fuel ys mid = some fin ∧
      ∀ q : State,
        crc16_update_each w fuel ys (crc16_init (crc16_result mid).1 q) = some fin := by
  refine ⟨_, _, crc16_update_each_eq w fuel hfuel xs _, crc16_update_each_eq w fuel hfuel _ _,
    ?_, ?_⟩
  · rw [crc16_update_each_eq w fuel hfuel]
    show some (State.mk (crcFoldW w (crcFoldW w s xs) ys)) =
      some (State.mk (crcFoldW w s (xs ++ ys)))
    rw [crcFoldW_append]
  · intro q
    rw [crc16_update_each_eq w fuel hfuel]
    show some (State.mk (crcFoldW w (crcFoldW w s xs) ys)) =
      some (State.mk (crcFoldW w s (xs ++ ys)))
    rw [crcFoldW_append]

theorem crc16_streaming_witness :
    ∃ (mid fin : State),
      crc16_update_each 32 9 [0x31, 0x32] (crc16_init 0xFFFF { crc_register := 7 }) =
        some mid ∧
      crc16_update_each 32 9 ([0x31, 0x32] ++ [0x33]) (crc16_init 0xFFFF { crc_register := 7 }) =
        some fin ∧
      crc16_update_each 32 9 [0x33] mid = some fin ∧
      ∀ q : State,
        crc16_update_each 32 9 [0x33] (crc16_init (crc16_result mid).1 q) = some fin :=
  crc16_streaming 32 9 0xFFFF [0x31, 0x32] [0x33] { crc_register := 7 } (by decide)

/-- C10: built with a 32-bit `unsigned int`, `crc16_update(0x41)` from the accumulator
`0xFFFF` leaves `0xD4FE0E`, while the textbook MSB-first CRC-16 byte step with
polynomial `0x8005` on the bit-reversed byte (`rev8 0x41 = 0x82`) gives the 16-bit
value `0xFE0E`. -/
theorem crc16_update_msb_first_32_bit :
    rev8 0x41 = 0x82 ∧
    msbByteStep 0xFFFF (rev8 0x41) = 0xFE0E ∧
    crc16_update 32 9 0x41 { crc_register := 0xFFFF } = some { crc_register := 0xD4FE0E } ∧
    (0xD4FE0E : Nat) ≠ 0xFE0E := by
  refine ⟨by decide, by decide, by decide, by decide⟩

/-- C11: with seed `0x0000` and polynomial `0x8005`, after feeding the byte sequence
`m` the accumulator, read as a polynomial over GF(2) (bit `i` is the coefficient of
`x^i`, `i = 0 .. 15`), is the remainder of `M(x) * x^16` modulo
`G(x) = x^16 + x^15 + x^2 + 1`, where the coefficients of `M(x)` are the bits of `m`
in processing order (byte 0 first, within each byte bit 0 first), the first
processed bit being the coefficient of the highest degree.  This holds at every
width `w ≥ 16` of `unsigned int`. -/
theorem crc16_is_polynomial_remainder (w fuel : Nat) (m : List Nat) (p : State)
    (hw : 16 ≤ w) (hfuel : 9 ≤ fuel) :
    genPoly = Polynomial.X ^ 16 + accPoly CRC16_POLYNOM ∧
    ∃ st : State, crc16_update_each w fuel m (crc16_init 0x0000 p) = some st ∧
      accPoly (crc16_result st).1 =
        (bitsPoly (messageBits m) * Polynomial.X ^ 16) % genPoly := by
  refine ⟨?_, _, crc16_update_each_eq w fuel hfuel m _, ?_⟩
  · show genPoly = Polynomial.X ^ 16 + accPoly 0x8005
    rw [accPoly_poly]
    unfold genPoly
    ring
  · show accPoly (crcFoldW w 0 m) = _
    rw [← accPoly_mod, crcFoldW_mod w hw m 0, ← accPoly_crcFold]
    rfl

theorem crc16_is_polynomial_remainder_witness :
    genPoly = Polynomial.X ^ 16 + accPoly CRC16_POLYNOM ∧
    ∃ st : State,
      crc16_update_each 32 9 [0x31, 0x32, 0x33]
          (crc16_init 0x0000 { crc_register := 0xBEEF }) = some st ∧
      accPoly (crc16_result st).1 =
        (bitsPoly (messageBits [0x31, 0x32, 0x33]) * Polynomial.X ^ 16) % genPoly :=
  crc16_is_polynomial_remainder 32 9 [0x31, 0x32, 0x33] { crc_register := 0xBEEF }
    (by decide) (by decide)

/-- C12: `crc16_calculate` seeds the accumulator with an 8-bit value only: for every
argument `initial` (converted to the parameter type `unsigned char`), every buffer
and every accumulator before the call, `crc16_calculate(initial, data, 0)` returns
and leaves the accumulator in `0 .. 0xFF`; so for every seed `s > 0xFF` the state in
which `crc16_calculate` starts its loop (and, with length 0, ends) is never the one
`crc16_init(s)` sets up, while `crc16_init(s)` followed by `crc16_result()`
gives `s`. -/
theorem crc16_calculate_seed_is_8_bit (w fuel initial : Nat) (data : List Nat) (p : State)
    (hfuel : 1 ≤ fuel) :
    (∃ st : State, crc16_calculate w fuel initial data 0 p = some st ∧
      (crc16_result st).1 ≤ 0xFF) ∧
    (∀ length : Nat, ∃ seed : Nat, seed ≤ 0xFF ∧
      crc16_calculate w fuel initial data length p =
        crc16_calculate_loop w fuel data (length % 2 ^ UCHAR_BITS) fuel 0
          (crc16_init seed p)) ∧
    (∀ s : Nat, 0xFF < s →
      crc16_calculate w fuel initial data 0 p ≠ some (crc16_init s p) ∧
      (crc16_result (crc16_init s p)).1 = s) := by
  have h := crc16_calculate_length_zero_eq w fuel initial data p hfuel
  have hlt : initial % 256 < 256 := Nat.mod_lt _ (by norm_num)
  refine ⟨⟨_, h, ?_⟩, ?_, ?_⟩
  · show initial % 256 ≤ 0xFF
    omega
  · intro length
    exact ⟨initial % 256, by omega, rfl⟩
  · intro s hs
    refine ⟨?_, rfl⟩
    rw [h]
    intro heq
    have : initial % 256 = s := congrArg State.crc_register (Option.some.inj heq)
    omega

theorem crc16_calculate_seed_is_8_bit_witness :
    (∃ st : State, crc16_calculate 32 1 0xFFFF [0x41] 0 { crc_register := 0x1234 } = some st ∧
      (crc16_result st).1 ≤ 0xFF) ∧
    (∀ length : Nat, ∃ seed : Nat, seed ≤ 0xFF ∧
      crc16_calculate 32 1 0xFFFF [0x41] length { crc_register := 0x1234 } =
        crc16_calculate_loop 32 1 [0x41] (length % 2 ^ UCHAR_BITS) 1 0
          (crc16_init seed { crc_register := 0x1234 })) ∧
    (∀ s : Nat, 0xFF < s →
      crc16_calculate 32 1 0xFFFF [0x41] 0 { crc_register := 0x1234 } ≠
        some (crc16_init s { crc_register := 0x1234 }) ∧
      (crc16_result (crc16_init s { crc_register := 0x1234 })).1 = s) :=
  crc16_calculate_seed_is_8_bit 32 1 0xFFFF [0x41] { crc_register := 0x1234 } (by decide)

/-- C13: the loop of `crc16_update` ends for every byte after exactly 8 passes, with
the masks `0x01, 0x02, ..., 0x80` in this order (9 evaluations of the loop
condition are needed and are enough), and the loop of `crc16_calculate` ends for
every `length` in `0 .. 255` after exactly `length` passes (`length + 1`
evaluations of its condition), the passes being those for `data[0]`, ...,
`data[length - 1]`. -/
theorem crc16_loops_terminate (w fuel length : Nat) (data : List Nat) (b : Nat) (s : State)
    (hfuel : 9 ≤ fuel) (hlen : length ≤ 255) (hdata : length ≤ data.length) :
    (crc16_update_loop w b fuel 0x01 s =
      some (crc16_update_body w b 0x80 (crc16_update_body w b 0x40
        (crc16_update_body w b 0x20 (crc16_update_body w b 0x10
        (crc16_update_body w b 0x08 (crc16_update_body w b 0x04
        (crc16_update_body w b 0x02 (crc16_update_body w b 0x01 s))))))))) ∧
    (∀ n : Nat, n ≤ 8 → crc16_update_loop w b n 0x01 s = none) ∧
    (∃ st : State, crc16_calculate_loop w fuel data length (length + 1) 0 s = some st ∧
      crc16_update_each w fuel (data.take length) s = some st) ∧
    (∀ n : Nat, n ≤ length → crc16_calculate_loop w fuel data length n 0 s = none) := by
  refine ⟨?_, ?_, ?_, ?_⟩
  · obtain ⟨n, rfl⟩ : ∃ n, fuel = n + 9 := ⟨fuel - 9, by omega⟩
    exact crc16_update_loop_unroll w b n s
  · intro n hn
    exact crc16_update_loop_short w b n s hn
  · refine ⟨_, ?_, crc16_update_each_eq w fuel hfuel _ s⟩
    rw [crc16_calculate_loop_eq w fuel data length (by omega) hdata (length + 1) 0 s
      (by omega) (by omega), List.drop_zero, crc16_update_each_eq w fuel hfuel]
  · intro n hn
    exact crc16_calculate_loop_short w fuel data length hfuel (by omega) hdata n 0 s (by omega)

theorem crc16_loops_terminate_witness :
    (crc16_update_loop 32 0x41 9 0x01 { crc_register := 0 } =
      some (crc16_update_body 32 0x41 0x80 (crc16_update_body 32 0x41 0x40
        (crc16_update_body 32 0x41 0x20 (crc16_update_body 32 0x41 0x10
        (crc16_update_body 32 0x41 0x08 (crc16_update_body 32 0x41 0x04
        (crc16_update_body 32 0x41 0x02 (crc16_update_body 32 0x41 0x01
          { crc_register := 0 }))))))))) ∧
    (∀ n : Nat, n ≤ 8 → crc16_update_loop 32 0x41 n 0x01 { crc_register := 0 } = none) ∧
    (∃ st : State,
      crc16_calculate_loop 32 9 (List.replicate 255 0x41) 255 (255 + 1) 0
          { crc_register := 0 } = some st ∧
      crc16_update_each 32 9 ((List.replicate 255 0x41).take 255) { crc_register := 0 } =
        some st) ∧
    (∀ n : Nat, n ≤ 255 →
      crc16_calculate_loop 32 9 (List.replicate 255 0x41) 255 n 0 { crc_register := 0 } =
        none) :=
  crc16_loops_terminate 32 9 255 (List.replicate 255 0x41) 0x41 { crc_register := 0 }
    (by decide) (by decide) (Nat.le_of_eq (List.length_replicate 255 0x41).symm)

/-- C14: `crc16_update` is linear over GF(2): the accumulator after `crc16_update(b1 xor b2)`
from `c1 xor c2` is the XOR of the accumulators after `crc16_update(b1)` from `c1` and
`crc16_update(b2)` from `c2`; and for byte sequences of equal length, feeding the
bytewise XOR from the XOR of the seeds gives the XOR of the two accumulators. -/
theorem crc16_update_linear (w fuel c1 c2 b1 b2 : Nat) (xs ys : List Nat)
    (hfuel : 9 ≤ fuel) (hlen : xs.length = ys.length) :
    (∃ r1 r2 : State,
      crc16_update w fuel b1 { crc_register := c1 } = some r1 ∧
      crc16_update w fuel b2 { crc_register := c2 } = some r2 ∧
      crc16_update w fuel (b1 ^^^ b2) { crc_register := c1 ^^^ c2 } =
        some { crc_register := r1.crc_register ^^^ r2.crc_register }) ∧
    (∃ r1 r2 : State,
      crc16_update_each w fuel xs (crc16_init c1 { crc_register := 0 }) = some r1 ∧
      crc16_update_each w fuel ys (crc16_init c2 { crc_register := 0 }) = some r2 ∧
      crc16_update_each w fuel (List.zipWith (fun x y => x ^^^ y) xs ys)
          (crc16_init (c1 ^^^ c2) { crc_register := 0 }) =
        some { crc_register := r1.crc_register ^^^ r2.crc_register }) := by
  refine ⟨⟨_, _, crc16_update_eq w fuel b1 _ hfuel, crc16_update_eq w fuel b2 _ hfuel, ?_⟩,
    ⟨_, _, crc16_update_each_eq w fuel hfuel xs _, crc16_update_each_eq w fuel hfuel ys _, ?_⟩⟩
  · rw [crc16_update_eq w fuel _ _ hfuel]
    show some (State.mk (bitStepsW w (c1 ^^^ c2) (b1 ^^^ b2))) =
      some (State.mk (bitStepsW w c1 b1 ^^^ bitStepsW w c2 b2))
    rw [bitStepsW_xor]
  · rw [crc16_update_each_eq w fuel hfuel]
    show some (State.mk (crcFoldW w (c1 ^^^ c2) (List.zipWith (fun x y => x ^^^ y) xs ys))) =
      some (State.mk (crcFoldW w c1 xs ^^^ crcFoldW w c2 ys))
    rw [crcFoldW_xor w xs ys hlen]

theorem crc16_update_linear_witness :
    (∃ r1 r2 : State,
      crc16_update 32 9 0x41 { crc_register := 0x1234 } = some r1 ∧
      crc16_update 32 9 0x0F { crc_register := 0xFFFF } = some r2 ∧
      crc16_update 32 9 (0x41 ^^^ 0x0F) { crc_register := 0x1234 ^^^ 0xFFFF } =
        some { crc_register := r1.crc_register ^^^ r2.crc_register }) ∧
    (∃ r1 r2 : State,
      crc16_update_each 32 9 [0x31, 0x32] (crc16_init 0x1234 { crc_register := 0 }) = some r1 ∧
      crc16_update_each 32 9 [0xAA, 0x55] (crc16_init 0xFFFF { crc_register := 0 }) = some r2 ∧
      crc16_update_each 32 9 (List.zipWith (fun x y => x ^^^ y) [0x31, 0x32] [0xAA, 0x55])
          (crc16_init (0x1234 ^^^ 0xFFFF) { crc_register := 0 }) =
        some { crc_register := r1.crc_register ^^^ r2.crc_register }) :=
  crc16_update_linear 32 9 0x1234 0xFFFF 0x41 0x0F [0x31, 0x32] [0xAA, 0x55] (by decide) rfl

/-- C15: a corruption confined to one byte is detected: for byte sequences `xs` and
`ys` of the same length that differ at exactly one index, the accumulator after
`crc16_init(s)` and updates over `xs` differs from the one after `crc16_init(s)` and
updates over `ys`. -/
theorem crc16_detects_one_byte (w fuel s i : Nat) (xs ys : List Nat) (p : State)
    (hw : 16 ≤ w) (hfuel : 9 ≤ fuel) (hlen : xs.length = ys.length)
    (hxs : ∀ x ∈ xs, x < 256) (hys : ∀ y ∈ ys, y < 256)
    (hdiff : xs[i]? ≠ ys[i]?) (hsame : ∀ j : Nat, j ≠ i → xs[j]? = ys[j]?) :
    ∃ r1 r2 : State,
      crc16_update_each w fuel xs (crc16_init s p) = some r1 ∧
      crc16_update_each w fuel ys (crc16_init s p) = some r2 ∧
      (crc16_result r1).1 ≠ (crc16_result r2).1 := by
  refine ⟨_, _, crc16_update_each_eq w fuel hfuel xs _, crc16_update_each_eq w fuel hfuel ys _,
    ?_⟩
  show crcFoldW w s xs ≠ crcFoldW w s ys
  intro h
  have h16 := congrArg (fun z => z % 2 ^ 16) h
  simp only [crcFoldW_mod w hw] at h16
  exact crcFold_one_byte_differs xs ys (s % 2 ^ 16) i hlen hxs hys hdiff hsame h16

theorem crc16_detects_one_byte_witness :
    ∃ r1 r2 : State,
      crc16_update_each 32 9 [0x31, 0x32, 0x33] (crc16_init 0xFFFF { crc_register := 0 }) =
        some r1 ∧
      crc16_update_each 32 9 [0x31, 0x36, 0x33] (crc16_init 0xFFFF { crc_register := 0 }) =
        some r2 ∧
      (crc16_result r1).1 ≠ (crc16_result r2).1 :=
  crc16_detects_one_byte 32 9 0xFFFF 1 [0x31, 0x32, 0x33] [0x31, 0x36, 0x33]
    { crc_register := 0 } (by decide) (by decide) rfl (by decide) (by decide) (by decide)
    (fun j hj => by
      match j, hj with
      | 0, _ => rfl
      | 1, h => exact absurd rfl h
      | 2, _ => rfl
      | _ + 3, _ => rfl)

/-- C16: for a fixed byte sequence `bs`, feeding `bs` from two different 16-bit
accumulator values `c1` and `c2` leaves different accumulator values. -/
theorem crc16_update_injective (w fuel c1 c2 : Nat) (bs : List Nat)
    (hw : 16 ≤ w) (hfuel : 9 ≤ fuel) (h1 : c1 ≤ 0xFFFF) (h2 : c2 ≤ 0xFFFF) (hne : c1 ≠ c2) :
    ∃ r1 r2 : State,
      crc16_update_each w fuel bs { crc_register := c1 } = some r1 ∧
      crc16_update_each w fuel bs { crc_register := c2 } = some r2 ∧
      r1.crc_register ≠ r2.crc_register := by
  refine ⟨_, _, crc16_update_each_eq w fuel hfuel bs _, crc16_update_each_eq w fuel hfuel bs _,
    ?_⟩
  show crcFoldW w c1 bs ≠ crcFoldW w c2 bs
  intro h
  have h16 := congrArg (fun z => z % 2 ^ 16) h
  simp only [crcFoldW_mod w hw] at h16
  have m1 : c1 % 2 ^ 16 = c1 := Nat.mod_eq_of_lt (by omega)
  have m2 : c2 % 2 ^ 16 = c2 := Nat.mod_eq_of_lt (by omega)
  rw [m1, m2] at h16
  exact hne (crcFold_injective bs c1 c2 (by omega) (by omega) h16)

theorem crc16_update_injective_witness :
    ∃ r1 r2 : State,
      crc16_update_each 32 9 [0x31, 0x32] { crc_register := 0x0000 } = some r1 ∧
      crc16_update_each 32 9 [0x31, 0x32] { crc_register := 0x8000 } = some r2 ∧
      r1.crc_register ≠ r2.crc_register :=
  crc16_update_injective 32 9 0x0000 0x8000 [0x31, 0x32] (by decide) (by decide) (by decide)
    (by decide) (by decide)

/-- C17: built with a 32-bit `unsigned int`, `crc16_calculate(0x00, data, 1)` with
`data = [0x41]` (ASCII "A") leaves the accumulator at `0x7E030C`, so `crc16_result()`
returns `0x7E030C` and not `0x030C`; only its low 16 bits are `0x030C`, the 16-bit
bit-reversal of the CRC-16/ARC value `0x30C0` of the same input. -/
theorem crc16_known_answer_A_32_bit :
    CRC16_POLYNOM = 0x8005 ∧
    (∃ st : State, crc16_calculate 32 9 0x00 [0x41] 1 State.startup = some st ∧
      (crc16_result st).1 = 0x7E030C ∧
      (crc16_result st).1 ≠ 0x030C ∧
      (crc16_result st).1 % 2 ^ 16 = 0x030C) ∧
    crc16_arc [0x41] = 0x30C0 ∧
    rev16 0x30C0 = 0x030C :=
  ⟨rfl, ⟨{ crc_register := 0x7E030C }, by decide, rfl, by decide, by decide⟩,
    by decide, by decide⟩

/-- C18: little-endian round trip: for a 16-bit accumulator value `v`, the two bytes
`out[0]` and `out[1]` that `crc16_result_array(out)` writes satisfy
`out[0] + 256 * out[1] = v`, the value `crc16_result()` returns. -/
theorem crc16_result_array_round_trip (v : Nat) (out : List Nat)
    (hv : v ≤ 0xFFFF) (hout : 2 ≤ out.length) :
    ∃ b0 b1 : Nat,
      (crc16_result_array out { crc_register := v }).1[0]? = some b0 ∧
      (crc16_result_array out { crc_register := v }).1[1]? = some b1 ∧
      b0 + 256 * b1 = v ∧
      b0 + 256 * b1 = (crc16_result { crc_register := v }).1 := by
  have hlist := crc16_result_array_eq v out hout
  have hsum : v % 256 + 256 * ((v / 256) % 256) = v := by omega
  refine ⟨v % 256, (v / 256) % 256, ?_, ?_, hsum, hsum⟩
  · rw [hlist]
    rfl
  · rw [hlist]
    simp

theorem crc16_result_array_round_trip_witness :
    ∃ b0 b1 : Nat,
      (crc16_result_array [0, 0] { crc_register := 0x030C }).1[0]? = some b0 ∧
      (crc16_result_array [0, 0] { crc_register := 0x030C }).1[1]? = some b1 ∧
      b0 + 256 * b1 = 0x030C ∧
      b0 + 256 * b1 = (crc16_result { crc_register := 0x030C }).1 :=
  crc16_result_array_round_trip 0x030C [0, 0] (by decide) (by decide)

end CRC16
